import Mathlib

/-!
Verification of the Shell mobile mining engine (MobileX) against its
natural-language specification.

The C++ sources under `mobile/android/app/src/main/cpp/` are shallowly
embedded here: bytes are `Nat` values `< 256`, 32-bit and 64-bit machine
words are `Nat` with explicit reductions `% 2^32` / `% 2^64` at the points
where C++ unsigned arithmetic wraps, `float`/`double` quantities are
modelled with exact rationals (`ℚ`), and the mutable objects
(`MobileXMiner`, `ThermalVerification`, `AndroidPowerManager`, the JNI
handle table) become explicit state values threaded through the
operations.  External, nondeterministic inputs (cycle counters, wall
clocks, the NPU backend's output) are passed in as explicit environment
arguments, so every definition is computable and every concrete run can
be evaluated by the kernel.
-/

namespace Shell

set_option maxRecDepth 4000

/-! ## Byte and word helpers

Bytes are `Nat < 256`; little-endian encodings follow the `memcpy`s of the
C++ source, which runs on little-endian ARM64. -/

/-- `n` bytes of `v`, little-endian (the layout `memcpy` produces for a
`uint64_t`/`uint32_t` on ARM64). -/
def leBytes : Nat → Nat → List Nat
  | 0, _ => []
  | n + 1, v => v % 256 :: leBytes n (v / 256)

/-- 8-byte little-endian encoding of a `uint64_t`. -/
def le64 (v : Nat) : List Nat := leBytes 8 v

/-- 4-byte little-endian encoding of a `uint32_t`. -/
def le32 (v : Nat) : List Nat := leBytes 4 v

/-- Read a little-endian byte list back as a number (missing bytes are 0). -/
def fromLEBytes : List Nat → Nat
  | [] => 0
  | b :: rest => b + 256 * fromLEBytes rest

/-- `n` bytes of `v`, big-endian (used by SHA-256's length field and words). -/
def beBytes (n : Nat) (v : Nat) : List Nat := (leBytes n v).reverse

/-- `static_cast<uint64_t>` of a `double` quantity modelled in ℚ:
truncation toward zero, which on the nonnegative values arising here is
the floor `⌊q⌋` (for a negative value the C++ cast is undefined behavior;
this model yields 0). -/
def ratToU64 (q : ℚ) : Nat := q.num.toNat / q.den

/-- Rotate a 32-bit word left by `n` (result reduced into 32 bits). -/
def rotl32 (n x : Nat) : Nat := ((x <<< n) ||| (x >>> (32 - n))) % 4294967296

/-- Rotate a 32-bit word right by `n` (for `x < 2^32`). -/
def rotr32 (n x : Nat) : Nat := ((x >>> n) ||| (x <<< (32 - n))) % 4294967296

/-- Byte-reverse of a 32-bit word (the ARM `REV` / `__builtin_bswap32`). -/
def bswap32 (x : Nat) : Nat :=
  ((x % 256) <<< 24) ||| (((x >>> 8) % 256) <<< 16) |||
    (((x >>> 16) % 256) <<< 8) ||| ((x >>> 24) % 256)

/-! ## SHA-256

Executable SHA-256 over byte lists, used by the source via OpenSSL's
`SHA256`.  Words are `Nat < 2^32`; all additions are reduced `% 2^32`. -/

/-- The 64 SHA-256 round constants. -/
def sha256K : List Nat :=
  [1116352408, 1899447441, 3049323471, 3921009573, 961987163,
   1508970993, 2453635748, 2870763221, 3624381080, 310598401,
   607225278, 1426881987, 1925078388, 2162078206, 2614888103,
   3248222580, 3835390401, 4022224774, 264347078, 604807628,
   770255983, 1249150122, 1555081692, 1996064986, 2554220882,
   2821834349, 2952996808, 3210313671, 3336571891, 3584528711,
   113926993, 338241895, 666307205, 773529912, 1294757372,
   1396182291, 1695183700, 1986661051, 2177026350, 2456956037,
   2730485921, 2820302411, 3259730800, 3345764771, 3516065817,
   3600352804, 4094571909, 275423344, 430227734, 506948616,
   659060556, 883997877, 958139571, 1322822218, 1537002063,
   1747873779, 1955562222, 2024104815, 2227730452, 2361852424,
   2428436474, 2756734187, 3204031479, 3329325298]

/-- The SHA-256 initial hash value. -/
def sha256H0 : List Nat :=
  [1779033703, 3144134277, 1013904242, 2773480762,
   1359893119, 2600822924, 528734635, 1541459225]

/-- SHA-256 message padding: append `0x80`, zeros to 56 mod 64, then the
bit length as 8 big-endian bytes. -/
def sha256Pad (msg : List Nat) : List Nat :=
  let zeros := (64 + 56 - (msg.length + 1) % 64) % 64
  msg ++ 128 :: List.replicate zeros 0 ++ beBytes 8 (8 * msg.length)

/-- Split a byte list into 64-byte blocks, structurally recursive on a
fuel bound (any fuel ≥ the block count gives the same result; each step
consumes 64 bytes). -/
def sha256BlocksGo (fuel : Nat) (l : List Nat) : List (List Nat) :=
  match fuel with
  | 0 => []
  | fuel + 1 => if l = [] then [] else l.take 64 :: sha256BlocksGo fuel (l.drop 64)

/-- Split a byte list into 64-byte blocks. -/
def sha256Blocks (l : List Nat) : List (List Nat) :=
  sha256BlocksGo l.length l

/-- The 16 big-endian 32-bit words of one 64-byte block. -/
def sha256Words (block : List Nat) : List Nat :=
  (List.range 16).map fun k =>
    ((block.getD (4 * k) 0) <<< 24) + ((block.getD (4 * k + 1) 0) <<< 16) +
      ((block.getD (4 * k + 2) 0) <<< 8) + block.getD (4 * k + 3) 0

/-- One step of the message-schedule extension: append
`W[t] = σ₁(W[t-2]) + W[t-7] + σ₀(W[t-15]) + W[t-16] (mod 2^32)`. -/
def sha256Extend (w : List Nat) : List Nat :=
  let n := w.length
  let s0 := fun x => (rotr32 7 x) ^^^ (rotr32 18 x) ^^^ (x >>> 3)
  let s1 := fun x => (rotr32 17 x) ^^^ (rotr32 19 x) ^^^ (x >>> 10)
  w ++ [(w.getD (n - 16) 0 + s0 (w.getD (n - 15) 0) + w.getD (n - 7) 0 +
         s1 (w.getD (n - 2) 0)) % 4294967296]

/-- The 64-entry message schedule of one block. -/
def sha256Schedule (block : List Nat) : List Nat :=
  sha256Extend^[48] (sha256Words block)

/-- The eight SHA-256 working registers. -/
structure Sha256Regs where
  a : Nat
  b : Nat
  c : Nat
  d : Nat
  e : Nat
  f : Nat
  g : Nat
  h : Nat

/-- One SHA-256 compression round with schedule word `w` and constant `k`. -/
def sha256Round (r : Sha256Regs) (wk : Nat × Nat) : Sha256Regs :=
  let S1 := (rotr32 6 r.e) ^^^ (rotr32 11 r.e) ^^^ (rotr32 25 r.e)
  let ch := (r.e &&& r.f) ^^^ ((4294967295 ^^^ r.e) &&& r.g)
  let t1 := (r.h + S1 + ch + wk.2 + wk.1) % 4294967296
  let S0 := (rotr32 2 r.a) ^^^ (rotr32 13 r.a) ^^^ (rotr32 22 r.a)
  let maj := (r.a &&& r.b) ^^^ (r.a &&& r.c) ^^^ (r.b &&& r.c)
  let t2 := (S0 + maj) % 4294967296
  ⟨(t1 + t2) % 4294967296, r.a, r.b, r.c, (r.d + t1) % 4294967296, r.e, r.f, r.g⟩

/-- Compress one 64-byte block into the running hash value (eight words). -/
def sha256Compress (hv : List Nat) (block : List Nat) : List Nat :=
  let ws := sha256Schedule block
  let init : Sha256Regs :=
    ⟨hv.getD 0 0, hv.getD 1 0, hv.getD 2 0, hv.getD 3 0,
     hv.getD 4 0, hv.getD 5 0, hv.getD 6 0, hv.getD 7 0⟩
  let r := (ws.zip sha256K).foldl sha256Round init
  [(hv.getD 0 0 + r.a) % 4294967296, (hv.getD 1 0 + r.b) % 4294967296,
   (hv.getD 2 0 + r.c) % 4294967296, (hv.getD 3 0 + r.d) % 4294967296,
   (hv.getD 4 0 + r.e) % 4294967296, (hv.getD 5 0 + r.f) % 4294967296,
   (hv.getD 6 0 + r.g) % 4294967296, (hv.getD 7 0 + r.h) % 4294967296]

/-- SHA-256 of a byte list, as its 32 digest bytes. -/
def sha256 (msg : List Nat) : List Nat :=
  let final := (sha256Blocks (sha256Pad msg)).foldl sha256Compress sha256H0
  final.foldr (fun w acc => beBytes 4 w ++ acc) []

/-! ## ARM64Optimizer (`arm64_optimizations.cpp`)

The 32-byte result buffers of `vectorHash` / `scalarHash` are embedded as
functions `Fin 32 → Nat` (byte at each index). -/

/-- `result[idx % 32] ^= b` on a 32-byte buffer. -/
def xorAt (res : Fin 32 → Nat) (idx : Nat) (b : Nat) : Fin 32 → Nat :=
  fun m => if (m : Nat) = idx % 32 then res m ^^^ b else res m

/-- The loop of `ARM64Optimizer::scalarHash` (and of `vectorHash`'s
trailing-byte loop), starting at global byte index `i`:
`for (; i < data.size(); ++i) result[i % 32] ^= data[i]`. -/
def scalarGo (res : Fin 32 → Nat) (i : Nat) : List Nat → (Fin 32 → Nat)
  | [] => res
  | b :: rest => scalarGo (xorAt res i b) (i + 1) rest

/-- `ARM64Optimizer::scalarHash`: XOR every input byte into a zeroed
32-byte buffer at index `i % 32`. -/
def scalarHash (data : List Nat) : Fin 32 → Nat :=
  scalarGo (fun _ => 0) 0 data

/-- One NEON chunk of `ARM64Optimizer::vectorHash`: load 16 bytes of data
(chunk `i`), XOR them into `result[(i % 2) * 16 .. (i % 2) * 16 + 16)`,
store back (`vld1q_u8` / `veorq_u8` / `vst1q_u8`). -/
def vecChunkStep (res : Fin 32 → Nat) (chunk : List Nat) (i : Nat) : Fin 32 → Nat :=
  fun m =>
    if (i % 2) * 16 ≤ (m : Nat) ∧ (m : Nat) < (i % 2) * 16 + 16 then
      res m ^^^ chunk.getD ((m : Nat) - (i % 2) * 16) 0
    else res m

/-- The loops of `ARM64Optimizer::vectorHash`: `chunks` counts the full
16-byte chunks left to process (the source's `chunks = data.size() / 16`
loop bound), `i` is the current chunk index; once the chunk loop is done,
the trailing bytes are XORed at `result[i % 32]` from global byte index
`chunks * 16 = 16 * i` on. -/
def vecGo (res : Fin 32 → Nat) (i : Nat) (chunks : Nat) (data : List Nat) :
    Fin 32 → Nat :=
  match chunks with
  | 0 => scalarGo res (16 * i) data
  | chunks + 1 => vecGo (vecChunkStep res (data.take 16) i) (i + 1) chunks (data.drop 16)

/-- `ARM64Optimizer::vectorHash` (the NEON path): result starts as 32 zero
bytes; `data.size() / 16` full 16-byte chunks are XOR-folded into
alternating halves, the tail byte-by-byte at `i % 32`. -/
def vectorHash (data : List Nat) : Fin 32 → Nat :=
  vecGo (fun _ => 0) 0 (data.length / 16) data

/-- The per-word bit manipulation of `ARM64Optimizer::armSpecificHash`
(32-bit unsigned arithmetic): rotate left 13, XOR with `>> 7`, XOR with
`<< 17`, then byte-reverse (`__builtin_bswap32`). -/
def armWordOp (value : Nat) : Nat :=
  let v1 := ((value <<< 13) % 4294967296) ||| (value >>> 19)
  let v2 := v1 ^^^ (v1 >>> 7)
  let v3 := v2 ^^^ ((v2 <<< 17) % 4294967296)
  bswap32 v3

/-- `ARM64Optimizer::armSpecificHash`: the word operation applied to every
element of the state vector. -/
def armSpecificHash (state : List Nat) : List Nat :=
  state.map armWordOp

/-! ## MobileXMiner (`mobile_randomx.cpp`) -/

/-- `MobileXMiner::bytesToUint32s` as written in the source: despite its
name it is declared to return `std::vector<uint8_t>` and `memcpy`s the
input bytes into a same-sized byte vector, i.e. it returns the 32 digest
bytes unchanged (32 one-byte entries, not eight 32-bit words). -/
def bytesToUint32s (bytes : List Nat) : List Nat := bytes

/-- The conversion `bytesToUint32s`'s name and call site require: reinterpret
the 32 digest bytes as eight `uint32_t` words, little-endian (the `memcpy`
layout a `std::vector<uint32_t>` of size 8 would receive on ARM64).
`armSpecificHash` takes `const std::vector<uint32_t>&`, so the source's
call `armSpecificHash(bytesToUint32s(...))` only type-checks with this
eight-word conversion. -/
def bytesToWords (bytes : List Nat) : List Nat :=
  (List.range 8).map fun k => fromLEBytes ((bytes.drop (4 * k)).take 4)

/-- `MobileXMiner::uint32sToBytes`: `memcpy` of a `uint32_t` array into
`4 * size` bytes — each word little-endian, concatenated. -/
def uint32sToBytes (data : List Nat) : List Nat :=
  (data.map le32).flatten

/-- The core-state mixing loop of `applyMobileMixing`:
`value ^= coreState; coreState = (coreState << 1) | (coreState >> 31)`
(32-bit unsigned), over the word vector in order. -/
def coreStateMix (c : Nat) : List Nat → List Nat
  | [] => []
  | v :: rest => (v ^^^ c) :: coreStateMix (((c <<< 1) % 4294967296) ||| (c >>> 31)) rest

/-- `MobileXMiner::applyMobileMixing` as written: convert with
`bytesToUint32s` (which returns the bytes unchanged), apply
`armSpecificHash`, mix with the rotating core state `0x12345678`, convert
back with `uint32sToBytes`, and SHA-256 the result. -/
def applyMobileMixing (randomxHash : List Nat) : List Nat :=
  let uint32Data := bytesToUint32s randomxHash
  let mixed := armSpecificHash uint32Data
  let mixed2 := coreStateMix 0x12345678 mixed
  let finalBytes := uint32sToBytes mixed2
  sha256 finalBytes

/-- `applyMobileMixing` with the conversion its own types require (the
eight-word `bytesToWords` in place of the as-written byte-identity). -/
def applyMobileMixingIntended (randomxHash : List Nat) : List Nat :=
  let uint32Data := bytesToWords randomxHash
  let mixed := armSpecificHash uint32Data
  let mixed2 := coreStateMix 0x12345678 mixed
  let finalBytes := uint32sToBytes mixed2
  sha256 finalBytes

/-- The mobile mixing transform as the specification words it (§4.6 step 3):
split the 32-byte digest into eight little-endian `u32` words; per word
`w ← rotl(w,13); w ← w XOR (w >> 7); w ← w XOR (w << 17); w ←
byte-reverse(w)`; then with core state `c = 0x12345678`, per word
`w ← w XOR c; c ← rotl(c,1)`; concatenate back to 32 bytes and finalize
with SHA-256. -/
def mobileMixSpec (v : List Nat) : List Nat :=
  let words := (List.range 8).map fun k => fromLEBytes ((v.drop (4 * k)).take 4)
  let transformed := words.map fun w =>
    let w1 := rotl32 13 w
    let w2 := w1 ^^^ (w1 >>> 7)
    let w3 := w2 ^^^ ((w2 <<< 17) % 4294967296)
    bswap32 w3
  let mixRot : Nat → List Nat → List Nat := fun c ws =>
    (ws.foldl (fun (acc : List Nat × Nat) w =>
      (acc.1 ++ [w ^^^ acc.2], rotl32 1 acc.2)) ([], c)).1
  sha256 (((mixRot 0x12345678 transformed).map le32).flatten)

/-- State of a `MobileXMiner`.  `cache` holds the (randomly initialized)
RandomX cache bytes; `vmPresent` / `npuPresent` model the `randomxVM_` and
`npu_` pointers; the 64-bit hash counter is modelled unbounded (no real
run approaches `2^64` hashes). -/
structure MinerState where
  hashesCompleted : Nat
  npuEnabled : Bool
  npuInterval : Nat
  vmPresent : Bool
  npuPresent : Bool
  hasNEON : Bool
  cache : List Nat

/-- The placeholder `randomx_calc_hash`: SHA-256 over the input followed by
the first `min(cacheSize, 1024)` cache bytes. -/
def randomxCalcHash (cache : List Nat) (input : List Nat) : List Nat :=
  sha256 (input ++ cache.take 1024)

/-- `MobileXMiner::serializeBlockHeader`: returns the header as-is. -/
def serializeBlockHeader (header : List Nat) : List Nat := header

/-- `MobileXMiner::shouldRunNPU`: false when NPU is disabled or absent,
else true iff the current hash counter is `0 mod npuInterval`. -/
def shouldRunNPU (st : MinerState) : Bool :=
  if !st.npuEnabled || !st.npuPresent then false
  else st.hashesCompleted % st.npuInterval == 0

/-- The 2048-byte VM state built by `MobileXMiner::runNPUStep`: bytes 0–7
are the hash counter little-endian (`memcpy`); the fill loop
`for (i = 8; i < 2048 && i - 8 < 32; ++i) vmState[i] = stateHash[(i-8) % 32]`
writes the 32 digest bytes of `SHA256(counter bytes)` at 8–39 and stops
there, leaving bytes 40–2047 at their initial 0. -/
def npuVMState (hashCount : Nat) : List Nat :=
  le64 hashCount ++ sha256 (le64 hashCount) ++ List.replicate 2008 0

/-- The derived state §4.6 step 4 describes: counter little-endian in the
first 8 bytes, and the SHA-256 of those 8 bytes repeated cyclically over
all remaining 2040 bytes.

Modelled from the spec: the cyclic fill the source's comment ("Repeat the
hash to fill the state") announces but its loop bound cuts short. -/
def npuVMStateSpec (hashCount : Nat) : List Nat :=
  le64 hashCount ++
    ((List.replicate 64 (sha256 (le64 hashCount))).flatten).take 2040

/-- `MobileXMiner::runNPUStep`.  `npuOut` is the NPU backend
(`NPUIntegration::processNeuralStep`): `none` models a failed step.  On
success, the first 4 output bytes read as a little-endian `u32`, reduced
`% 1000`, are added to the hash counter. -/
def runNPUStep (npuOut : List Nat → Option (List Nat)) (st : MinerState) : MinerState :=
  if !st.npuPresent then st
  else
    match npuOut (npuVMState st.hashesCompleted) with
    | some npuResult =>
        if 4 ≤ npuResult.length then
          { st with hashesCompleted :=
              st.hashesCompleted + fromLEBytes (npuResult.take 4) % 1000 }
        else st
    | none => st

/-- `MobileXMiner::computeMobileXHash`: returns the 32-byte digest, the
updated miner state, and whether an NPU step ran.  The source increments
`hashesCompleted_` and only then checks `shouldRunNPU()`. -/
def computeMobileXHash (npuOut : List Nat → Option (List Nat))
    (st : MinerState) (headerBytes : List Nat) : List Nat × MinerState × Bool :=
  if !st.vmPresent then (List.replicate 32 0, st, false)
  else
    let serialized := serializeBlockHeader headerBytes
    let preprocessed :=
      if st.hasNEON then List.ofFn (vectorHash serialized) else serialized
    let vmOutput := randomxCalcHash st.cache preprocessed
    let mixed := applyMobileMixing vmOutput
    let st1 := { st with hashesCompleted := st.hashesCompleted + 1 }
    if shouldRunNPU st1 then (mixed, runNPUStep npuOut st1, true)
    else (mixed, st1, false)

/-! ## AndroidPowerManager (`android_power_manager.cpp`)

Battery level is a C++ `int` (ℤ); temperature a `float` (ℚ, exact). -/

/-- Mining intensity levels (stable wire mapping 0/1/2/3). -/
inductive MiningIntensity
  | DISABLED
  | LIGHT
  | MEDIUM
  | FULL
deriving DecidableEq, Repr

/-- State of an `AndroidPowerManager`. -/
structure PowerMgrState where
  batteryLevel : ℤ
  isCharging : Bool
  currentTemp : ℚ
  canMine : Bool

/-- `AndroidPowerManager::updateMiningPermission`:
`canMine_ = isCharging_ && batteryLevel_ >= 80 && currentTemp_ < 50.0f`. -/
def updateMiningPermission (st : PowerMgrState) : PowerMgrState :=
  { st with canMine :=
      st.isCharging && decide (80 ≤ st.batteryLevel) && decide (st.currentTemp < 50) }

/-- `AndroidPowerManager::updatePowerState` with the sensor readout made
explicit: install the snapshot values and recompute the mining
permission. -/
def updatePowerState (st : PowerMgrState) (battery : ℤ) (charging : Bool)
    (temp : ℚ) : PowerMgrState :=
  updateMiningPermission
    { st with batteryLevel := battery, isCharging := charging, currentTemp := temp }

/-- `AndroidPowerManager::canStartMining`: returns the stored `canMine_`. -/
def canStartMining (st : PowerMgrState) : Bool := st.canMine

/-- `AndroidPowerManager::shouldStopMining`:
`!canMine_ || batteryLevel_ < 20 || currentTemp_ > 50.0f`. -/
def shouldStopMining (st : PowerMgrState) : Bool :=
  !st.canMine || decide (st.batteryLevel < 20) || decide (50 < st.currentTemp)

/-- `AndroidPowerManager::determineOptimalIntensity`. -/
def determineOptimalIntensity (st : PowerMgrState) : MiningIntensity :=
  if !st.canMine then .DISABLED
  else if !st.isCharging then .DISABLED
  else if st.batteryLevel < 80 then .DISABLED
  else if 45 < st.currentTemp then .LIGHT
  else if 95 < st.batteryLevel ∧ st.currentTemp < 40 then .FULL
  else if 85 < st.batteryLevel then .MEDIUM
  else .LIGHT

/-! ## ThermalVerification (`thermal_verification.cpp`)

The cycle counter and wall clock are nondeterministic inputs: one
generate call's readings are collected in a `TVEnv`.  `float`/`double`
quantities are exact rationals; `static_cast<uint64_t>` of the nonnegative
`double`s involved is the floor. -/

/-- A `ThermalProof` record. -/
structure TProof where
  cycleCount : Nat
  expectedCycles : Nat
  frequency : Nat
  temperature : ℚ
  timestampMs : Nat
  workHash : List Nat

/-- The environment one `generateThermalProof` call observes: the cycle
counter delta across the half-speed workload, the elapsed microseconds,
and the wall-clock time for the proof's timestamp. -/
structure TVEnv where
  cycleDelta : Nat
  elapsedMicros : Nat
  timeMs : Nat

/-- State of a `ThermalVerification` object. -/
structure TVState where
  baseFrequency : Nat
  tolerancePercent : ℚ
  currentTemperature : ℚ
  history : List TProof

/-- `ThermalVerification::calculateExpectedCycles`: `workloadSize * 100`
cycles, scaled by the thermal multiplier `1 + (t − 45) · 0.02` above
45 °C, `1 − (35 − t) · 0.01` below 35 °C, else 1. -/
def calculateExpectedCycles (workloadSize : Nat) (temp : ℚ) : Nat :=
  let baseCycles : ℚ := workloadSize * 100
  let thermalMultiplier : ℚ :=
    if 45 < temp then 1 + (temp - 45) * (2 / 100)
    else if temp < 35 then 1 - (35 - temp) * (1 / 100)
    else 1
  ratToU64 (baseCycles * thermalMultiplier)

/-- `ThermalVerification::encodeProof`: SHA-256 over the 32-byte pack of
(cycleCount, expectedCycles, frequency, temperature·100) as four
little-endian `u64`s; the first 8 digest bytes read as a `u64`. -/
def encodeProof (p : TProof) : Nat :=
  let data := le64 p.cycleCount ++ le64 p.expectedCycles ++ le64 p.frequency ++
    le64 (ratToU64 (p.temperature * 100))
  fromLEBytes ((sha256 data).take 8)

/-- `ThermalVerification::addToHistory`: append, then drop the oldest
entries beyond `MAX_HISTORY_SIZE = 1000`. -/
def addToHistory (h : List TProof) (p : TProof) : List TProof :=
  let h2 := h ++ [p]
  if 1000 < h2.length then h2.drop (h2.length - 1000) else h2

/-- The `ThermalProof` record `generateThermalProof` fills: the workload is
the first `min(size, 32)` header bytes; `effectiveFreq` is
`cycleDelta / elapsedSeconds / 1e6` truncated (`elapsedMicros = 0`, a
division by zero in the source, is modelled as 0). -/
def mkThermalProof (env : TVEnv) (st : TVState) (headerBytes : List Nat) : TProof :=
  let testWorkload := headerBytes.take 32
  let effectiveFreq :=
    ratToU64 ((env.cycleDelta : ℚ) / ((env.elapsedMicros : ℚ) / 1000000) / 1000000)
  { cycleCount := env.cycleDelta
    expectedCycles := calculateExpectedCycles testWorkload.length st.currentTemperature
    frequency := effectiveFreq
    temperature := st.currentTemperature
    timestampMs := env.timeMs
    workHash := sha256 headerBytes }

/-- `ThermalVerification::generateThermalProof`: build the proof, append it
to the history, and return its `encodeProof` value. -/
def generateThermalProof (env : TVEnv) (st : TVState) (headerBytes : List Nat) :
    Nat × TVState :=
  let proof := mkThermalProof env st headerBytes
  (encodeProof proof, { st with history := addToHistory st.history proof })

/-- `ThermalVerification::serializeHeaderForThermalValidation`: strip the
last 8 bytes (the embedded proof slot) when the header has at least 8. -/
def serializeHeaderForThermalValidation (headerBytes : List Nat) : List Nat :=
  if 8 ≤ headerBytes.length then headerBytes.take (headerBytes.length - 8)
  else headerBytes

/-- `ThermalVerification::validateThermalProof`: regenerate a proof over the
stripped header (this also appends to the history), then accept iff the
given proof lies within `± tolerancePercent` of the regenerated value. -/
def validateThermalProof (env : TVEnv) (st : TVState) (thermalProof : Nat)
    (headerBytes : List Nat) : Bool × TVState :=
  let validationBytes := serializeHeaderForThermalValidation headerBytes
  let res := generateThermalProof env st validationBytes
  let expectedProof := res.1
  let toleranceRange : ℚ := (expectedProof : ℚ) * st.tolerancePercent / 100
  let minAcceptable := ratToU64 ((expectedProof : ℚ) - toleranceRange)
  let maxAcceptable := ratToU64 ((expectedProof : ℚ) + toleranceRange)
  (decide (minAcceptable ≤ thermalProof) && decide (thermalProof ≤ maxAcceptable),
    res.2)

/-- Mean of a temperature list (`sum / proofs.size()`). -/
def tempMean (l : List ℚ) : ℚ := l.sum / l.length

/-- Population variance of a temperature list
(`Σ (t − mean)² / proofs.size()`). -/
def tempVariance (l : List ℚ) : ℚ :=
  (l.map fun t => (t - tempMean l) ^ 2).sum / l.length

/-- `ThermalVerification::detectThermalCheating`: empty below 10 proofs;
otherwise the indices whose z-score `|t − mean| / stdDev` exceeds the
threshold.  The source compares `|t − mean| / sqrt(variance) > threshold`
in `double`; since ℚ has no square root, the filter uses the square-free
equivalent `threshold² · variance < (t − mean)²` (for a nonnegative
threshold; the ℝ-level equivalence, including the `variance = 0` case the
source's division by zero produces, is proved below). -/
def detectThermalCheating (proofs : List TProof) (threshold : ℚ) : List Nat :=
  if proofs.length < 10 then []
  else
    let temps := proofs.map (·.temperature)
    let mean := tempMean temps
    let variance := tempVariance temps
    (List.range proofs.length).filter fun i =>
      decide (threshold ^ 2 * variance < (temps.getD i 0 - mean) ^ 2)

/-! ## The JNI surface (`shell_mining_jni.cpp`)

The opaque `jlong` handle is a `Nat`; the heap of `AndroidMobileXMiner`
objects is a total map from nonzero handles to miner values (the fields an
operation can observe). -/

/-- The observable fields of an `AndroidMobileXMiner` behind a handle. -/
structure AndroidMiner where
  is_mining : Bool
  hashRate : ℚ
  temperature : ℚ
  npuUtilization : ℚ
  thermalProofVal : Nat

/-- The JNI handle table. -/
def JNIWorld : Type := Nat → AndroidMiner

/-- Point update of the handle table. -/
def worldSet (w : JNIWorld) (ptr : Nat) (m : AndroidMiner) : JNIWorld :=
  fun q => if q = ptr then m else w q

/-- `createMiner`: allocate (at some fresh nonzero address `addr`) and
initialize; on initialization failure the object is deleted and the zero
handle is returned. -/
def jniCreateMiner (initOk : Bool) (addr : Nat) : Nat :=
  if initOk then addr else 0

/-- `destroyMiner`: a zero handle is not deleted; deallocation itself is
not observable in this state model. -/
def jniDestroyMiner (w : JNIWorld) (ptr : Nat) : JNIWorld :=
  if ptr = 0 then w else w

/-- `startMining`: zero handle returns `JNI_FALSE` and touches nothing;
otherwise delegate (already-mining returns true; `MobileXMiner::startMining`
accepts only LIGHT/MEDIUM/FULL = 1/2/3 and rejects other intensity codes). -/
def jniStartMining (w : JNIWorld) (ptr : Nat) (intensity : ℤ) : Bool × JNIWorld :=
  if ptr = 0 then (false, w)
  else
    let m := w ptr
    if m.is_mining then (true, w)
    else
      let ok := decide (intensity = 1 ∨ intensity = 2 ∨ intensity = 3)
      (ok, worldSet w ptr { m with is_mining := ok })

/-- `stopMining`: zero handle returns `JNI_FALSE`; otherwise stops and
returns true. -/
def jniStopMining (w : JNIWorld) (ptr : Nat) : Bool × JNIWorld :=
  if ptr = 0 then (false, w)
  else (true, worldSet w ptr { w ptr with is_mining := false })

/-- `getHashRate`: 0.0 on a zero handle. -/
def jniGetHashRate (w : JNIWorld) (ptr : Nat) : ℚ :=
  if ptr = 0 then 0 else (w ptr).hashRate

/-- `getRandomXHashRate`: 0.0 on a zero handle, else 70 % of the total. -/
def jniGetRandomXHashRate (w : JNIWorld) (ptr : Nat) : ℚ :=
  if ptr = 0 then 0 else (w ptr).hashRate * (7 / 10)

/-- `getMobileXHashRate`: 0.0 on a zero handle, else 30 % of the total. -/
def jniGetMobileXHashRate (w : JNIWorld) (ptr : Nat) : ℚ :=
  if ptr = 0 then 0 else (w ptr).hashRate * (3 / 10)

/-- `getCurrentTemperature`: the source returns `30.0f` — not zero — on a
zero handle. -/
def jniGetCurrentTemperature (w : JNIWorld) (ptr : Nat) : ℚ :=
  if ptr = 0 then 30 else (w ptr).temperature

/-- `getNPUUtilization`: 0.0 on a zero handle. -/
def jniGetNPUUtilization (w : JNIWorld) (ptr : Nat) : ℚ :=
  if ptr = 0 then 0 else (w ptr).npuUtilization

/-- `isMining`: `JNI_FALSE` on a zero handle. -/
def jniIsMining (w : JNIWorld) (ptr : Nat) : Bool :=
  if ptr = 0 then false else (w ptr).is_mining

/-- `generateThermalProof`: 0 on a zero handle. -/
def jniGenerateThermalProof (w : JNIWorld) (ptr : Nat) : Nat :=
  if ptr = 0 then 0 else (w ptr).thermalProofVal

/-- `configureNPU`: returns immediately on a zero handle; otherwise only
logs (a placeholder in the source). -/
def jniConfigureNPU (w : JNIWorld) (ptr : Nat) : JNIWorld :=
  if ptr = 0 then w else w

/-! ## Concrete fixtures for counterexamples and witnesses -/

/-- A fully initialized miner about to compute its first hash: counter 0,
NPU enabled and present, interval 150, VM present. -/
def c1Miner : MinerState :=
  { hashesCompleted := 0, npuEnabled := true, npuInterval := 150,
    vmPresent := true, npuPresent := true, hasNEON := true, cache := [] }

/-- The same miner with 149 hashes completed (the 150th hash triggers the
NPU step). -/
def c1Miner149 : MinerState :=
  { c1Miner with hashesCompleted := 149 }

/-- A power manager before any update (constructor state). -/
def p0 : PowerMgrState :=
  { batteryLevel := 100, isCharging := false, currentTemp := 30, canMine := false }

/-- A deterministic environment for one thermal-proof generation:
2·10^8 cycles over 0.1 s (an effective 2000 MHz). -/
def cexEnv : TVEnv :=
  { cycleDelta := 200000000, elapsedMicros := 100000, timeMs := 0 }

/-- A thermal verifier at the defaults: 2000 MHz base, 5 % tolerance,
40 °C, empty history. -/
def cexTV : TVState :=
  { baseFrequency := 2000, tolerancePercent := 5, currentTemperature := 40,
    history := [] }

/-- A 32-zero-byte header. -/
def zeroHeader32 : List Nat := List.replicate 32 0

/-- A 4-byte header (shorter than the 8-byte proof slot, so validation
strips nothing). -/
def zeroHeader4 : List Nat := List.replicate 4 0

/-- A thermal proof whose temperature is 40 °C. -/
def tp40 : TProof :=
  { cycleCount := 0, expectedCycles := 0, frequency := 0, temperature := 40,
    timestampMs := 0, workHash := [] }

/-- A miner value for populating JNI worlds in concrete runs. -/
def m0 : AndroidMiner :=
  { is_mining := false, hashRate := 0, temperature := 0, npuUtilization := 0,
    thermalProofVal := 0 }

/-! ## C1 — the NPU-step schedule -/

/-- C1 (counterexample): with the hash counter at 0 — the first hash, here
over a 32-zero-byte header on a fully initialized, NPU-enabled miner — no
NPU step is triggered, contrary to the claim that `0 mod 150 == 0` makes
it run: `computeMobileXHash` increments the counter before calling
`shouldRunNPU`, so the check sees 1. -/
theorem C1_counterexample :
    (computeMobileXHash (fun _ => none) c1Miner zeroHeader32).2.2 = false ∧
      c1Miner.hashesCompleted % 150 = 0 := by
  exact ⟨rfl, rfl⟩

/-- C1 (amended): during `computeMobileXHash` on a miner whose RandomX VM
is present, an NPU step is triggered if and only if the NPU is enabled and
present and the incremented counter satisfies
`(hashesCompleted + 1) mod npuInterval == 0`; in particular the first hash
(counter 0) does not run the NPU step — the step first fires on the 150th
hash. -/
theorem C1_npu_schedule (npuOut : List Nat → Option (List Nat)) (st : MinerState)
    (header : List Nat) (hvm : st.vmPresent = true) :
    (computeMobileXHash npuOut st header).2.2 = true ↔
      (st.npuEnabled = true ∧ st.npuPresent = true ∧
        (st.hashesCompleted + 1) % st.npuInterval = 0) := by
  have h1 : (computeMobileXHash npuOut st header).2.2 =
      shouldRunNPU { st with hashesCompleted := st.hashesCompleted + 1 } := by
    unfold computeMobileXHash
    rw [hvm]
    simp only [Bool.not_true, Bool.false_eq_true, if_false]
    split <;> rename_i hc
    · simp [hc]
    · simp only [Bool.not_eq_true] at hc
      simp [hc]
  rw [h1]
  unfold shouldRunNPU
  by_cases he : st.npuEnabled <;> by_cases hp : st.npuPresent <;>
    simp [he, hp, beq_iff_eq]

/-- C1 witness: on the miner with 149 completed hashes the amended
schedule applies and the 150th hash triggers the NPU step. -/
theorem C1_npu_schedule_witness :
    c1Miner149.vmPresent = true ∧
      ((computeMobileXHash (fun _ => none) c1Miner149 zeroHeader32).2.2 = true ↔
        (c1Miner149.npuEnabled = true ∧ c1Miner149.npuPresent = true ∧
          (c1Miner149.hashesCompleted + 1) % c1Miner149.npuInterval = 0)) :=
  ⟨rfl, C1_npu_schedule (fun _ => none) c1Miner149 zeroHeader32 rfl⟩

/-! ## C2 — the intensity decision table -/

/-- C2 (counterexample): battery 85 %, charging, 42 °C yields LIGHT, not
the MEDIUM the claim asserts — the MEDIUM branch requires
`batteryLevel_ > 85` strictly. -/
theorem C2_counterexample :
    determineOptimalIntensity (updatePowerState p0 85 true 42) ≠
      MiningIntensity.MEDIUM := by
  decide

/-- C2 (amended): with the mining permission freshly recomputed from the
snapshot, `determineOptimalIntensity` follows the §4.3 grid guarded by the
`canMine` gate — DISABLED unless charging ∧ battery ≥ 80 ∧ temp < 50
(so temp ≥ 50 gives DISABLED, not LIGHT) — and with strict bounds
battery > 95 / battery > 85, so battery = 85 yields LIGHT. -/
theorem C2_intensity_table (st : PowerMgrState) (battery : ℤ) (charging : Bool)
    (temp : ℚ) :
    determineOptimalIntensity (updatePowerState st battery charging temp) =
      (if ¬(charging = true ∧ 80 ≤ battery ∧ temp < 50) then .DISABLED
       else if 45 < temp then .LIGHT
       else if 95 < battery ∧ temp < 40 then .FULL
       else if 85 < battery then .MEDIUM
       else .LIGHT) := by
  cases charging <;>
    simp only [determineOptimalIntensity, updatePowerState, updateMiningPermission,
      Bool.false_and, Bool.true_and, Bool.not_false, Bool.not_true, if_true,
      Bool.and_eq_true, decide_eq_true_eq, Bool.not_eq_true', false_and, true_and,
      not_and, not_lt, not_false_eq_true, not_true_eq_false] <;>
    split_ifs <;> simp_all

/-! ## C6 — mining permission invariants -/

/-- C6: after every power-state update from a snapshot,
`canStartMining ⟺ charging ∧ battery ≥ 80 ∧ temp < 50` and
`shouldStopMining ⟺ ¬canMine ∨ battery < 20 ∨ temp > 50`. -/
theorem C6_permissions (st : PowerMgrState) (battery : ℤ) (charging : Bool)
    (temp : ℚ) :
    (canStartMining (updatePowerState st battery charging temp) = true ↔
      (charging = true ∧ 80 ≤ battery ∧ temp < 50)) ∧
    (shouldStopMining (updatePowerState st battery charging temp) = true ↔
      (¬(updatePowerState st battery charging temp).canMine = true ∨
        battery < 20 ∨ 50 < temp)) := by
  cases charging <;> by_cases h80 : (80 : ℤ) ≤ battery <;> by_cases h50 : temp < 50 <;>
    simp_all [canStartMining, shouldStopMining, updatePowerState,
      updateMiningPermission, not_lt, not_le]

/-! ## C9 — the zero-handle error path -/

/-- C9 (counterexample): `getCurrentTemperature` on the zero handle returns
the fallback 30.0 °C, not the zero value the claim asserts. -/
theorem C9_counterexample :
    jniGetCurrentTemperature (fun _ => m0) 0 = 30 ∧ (30 : ℚ) ≠ 0 :=
  ⟨rfl, by norm_num⟩

/-- C9 (amended): `createMiner` returns the zero handle when
initialization fails, and every other operation invoked with the zero
handle returns its sentinel — 0.0 for the hash rates, false for the
booleans, 0 for the thermal proof, zero for NPU utilization, but 30.0 (not
zero) for the temperature — and leaves the handle table untouched. -/
theorem C9_zero_handle (w : JNIWorld) (addr : Nat) (intensity : ℤ) :
    jniCreateMiner false addr = 0 ∧
    jniStartMining w 0 intensity = (false, w) ∧
    jniStopMining w 0 = (false, w) ∧
    jniGetHashRate w 0 = 0 ∧
    jniGetRandomXHashRate w 0 = 0 ∧
    jniGetMobileXHashRate w 0 = 0 ∧
    jniGetCurrentTemperature w 0 = 30 ∧
    jniGetNPUUtilization w 0 = 0 ∧
    jniIsMining w 0 = false ∧
    jniGenerateThermalProof w 0 = 0 ∧
    jniConfigureNPU w 0 = w ∧
    jniDestroyMiner w 0 = w :=
  ⟨rfl, rfl, rfl, rfl, rfl, rfl, rfl, rfl, rfl, rfl, rfl, rfl⟩

/-! ## C10 — validation mutates the thermal history -/

/-- `addToHistory` grows the history by one entry, capped at 1000. -/
theorem addToHistory_length (h : List TProof) (p : TProof) :
    (addToHistory h p).length = min (h.length + 1) 1000 := by
  simp only [addToHistory]
  split <;> rename_i hcond <;>
    simp only [List.length_drop, List.length_append, List.length_cons,
      List.length_nil] at hcond ⊢ <;> omega

/-- C10: `validateThermalProof` internally regenerates a proof over the
stripped header, so its post-state history is the input history with that
proof appended (FIFO-capped at 1000 entries): validation is not read-only
and each call grows the history by one entry up to the cap. -/
theorem C10_validation_grows_history (env : TVEnv) (st : TVState) (pv : Nat)
    (header : List Nat) :
    (validateThermalProof env st pv header).2.history =
      addToHistory st.history
        (mkThermalProof env st (serializeHeaderForThermalValidation header)) ∧
    (validateThermalProof env st pv header).2.history.length =
      min (st.history.length + 1) 1000 := by
  refine ⟨rfl, ?_⟩
  show (addToHistory st.history _).length = _
  exact addToHistory_length _ _

/-! ## C3 — the mobile mixing transform -/

/-- Reducing modulo `2^n` distributes over bitwise or. -/
theorem or_mod_two_pow (a b n : Nat) :
    (a ||| b) % 2 ^ n = (a % 2 ^ n) ||| (b % 2 ^ n) := by
  apply Nat.eq_of_testBit_eq
  intro i
  simp only [Nat.testBit_mod_two_pow, Nat.testBit_or]
  by_cases h : i < n <;> simp [h]

/-- For `b < 2^n` the mask on the second or-operand is a no-op. -/
theorem or_mod_two_pow_of_lt (a b n : Nat) (hb : b < 2 ^ n) :
    (a ||| b) % 2 ^ n = (a % 2 ^ n) ||| b := by
  rw [or_mod_two_pow, Nat.mod_eq_of_lt hb]

/-- On 32-bit values the source's `(v << 13) | (v >> 19)` is the rotate
`rotl32 13`. -/
theorem armWordOp_rotl (v : Nat) (hv : v < 4294967296) :
    ((v <<< 13) % 4294967296) ||| (v >>> 19) = rotl32 13 v := by
  have hle : v >>> 19 ≤ v := by
    rw [Nat.shiftRight_eq_div_pow]; exact Nat.div_le_self _ _
  have h19 : v >>> 19 < 4294967296 := lt_of_le_of_lt hle hv
  have h := or_mod_two_pow_of_lt (v <<< 13) (v >>> 19) 32 (by exact_mod_cast h19)
  unfold rotl32
  norm_num at h ⊢
  exact h.symm

/-- On 32-bit values the source's `(c << 1) | (c >> 31)` core-state rotate
is `rotl32 1`. -/
theorem coreRot_rotl (c : Nat) (hc : c < 4294967296) :
    ((c <<< 1) % 4294967296) ||| (c >>> 31) = rotl32 1 c := by
  have hle : c >>> 31 ≤ c := by
    rw [Nat.shiftRight_eq_div_pow]; exact Nat.div_le_self _ _
  have h31 : c >>> 31 < 4294967296 := lt_of_le_of_lt hle hc
  have h := or_mod_two_pow_of_lt (c <<< 1) (c >>> 31) 32 (by exact_mod_cast h31)
  unfold rotl32
  norm_num at h ⊢
  exact h.symm

/-- The core-state loop as a left fold (the shape `mobileMixSpec` uses)
agrees with the source's recursion, for any 32-bit initial core state. -/
theorem coreStateMix_eq_foldl (l : List Nat) :
    ∀ (acc : List Nat) (c : Nat), c < 4294967296 →
      (l.foldl (fun (a : List Nat × Nat) w => (a.1 ++ [w ^^^ a.2], rotl32 1 a.2))
          (acc, c)).1 = acc ++ coreStateMix c l := by
  induction l with
  | nil => intro acc c _; simp [coreStateMix]
  | cons w rest ih =>
      intro acc c hc
      have hrot : rotl32 1 c < 4294967296 := Nat.mod_lt _ (by norm_num)
      simp only [List.foldl_cons, coreStateMix]
      rw [ih (acc ++ [w ^^^ c]) (rotl32 1 c) hrot, coreRot_rotl c hc]
      simp

/-- A little-endian read of bytes is bounded by `256 ^ length`. -/
theorem fromLEBytes_lt (l : List Nat) (hb : ∀ b ∈ l, b < 256) :
    fromLEBytes l < 256 ^ l.length := by
  induction l with
  | nil => simp [fromLEBytes]
  | cons b rest ih =>
      have hbb : b < 256 := hb b (List.mem_cons_self ..)
      have hr : fromLEBytes rest < 256 ^ rest.length :=
        ih fun x hx => hb x (List.mem_cons_of_mem _ hx)
      simp only [fromLEBytes, List.length_cons, pow_succ]
      calc b + 256 * fromLEBytes rest
        ≤ 255 + 256 * fromLEBytes rest := by omega
      _ < 256 * (fromLEBytes rest + 1) := by ring_nf; omega
      _ ≤ 256 * 256 ^ rest.length := by
            have : fromLEBytes rest + 1 ≤ 256 ^ rest.length := hr
            exact Nat.mul_le_mul_left _ this
      _ = 256 ^ rest.length * 256 := by ring

/-- With the eight-word conversion its declared types require in place of
the as-written byte-identity `bytesToUint32s`, the source's mixing
pipeline equals the specified reference transform on every 32-byte
digest. -/
theorem applyMobileMixingIntended_eq_spec (v : List Nat) (hb : ∀ b ∈ v, b < 256) :
    applyMobileMixingIntended v = mobileMixSpec v := by
  unfold applyMobileMixingIntended mobileMixSpec bytesToWords armSpecificHash
    uint32sToBytes
  have hwords : ∀ w ∈ (List.range 8).map
      (fun k => fromLEBytes ((v.drop (4 * k)).take 4)), w < 4294967296 := by
    intro w hw
    obtain ⟨k, _, rfl⟩ := List.mem_map.mp hw
    have hlt : fromLEBytes ((v.drop (4 * k)).take 4) <
        256 ^ ((v.drop (4 * k)).take 4).length := by
      refine fromLEBytes_lt _ fun b hbm => hb b ?_
      exact List.drop_subset _ _ (List.take_subset _ _ hbm)
    have hlen : ((v.drop (4 * k)).take 4).length ≤ 4 := by
      simp [List.length_take]
    calc fromLEBytes ((v.drop (4 * k)).take 4)
        < 256 ^ ((v.drop (4 * k)).take 4).length := hlt
      _ ≤ 256 ^ 4 := Nat.pow_le_pow_right (by norm_num) hlen
      _ ≤ 4294967296 := by norm_num
  have htrans : ((List.range 8).map
        (fun k => fromLEBytes ((v.drop (4 * k)).take 4))).map armWordOp =
      ((List.range 8).map (fun k => fromLEBytes ((v.drop (4 * k)).take 4))).map
        (fun w =>
          let w1 := rotl32 13 w
          let w2 := w1 ^^^ (w1 >>> 7)
          let w3 := w2 ^^^ ((w2 <<< 17) % 4294967296)
          bswap32 w3) := by
    refine List.map_congr_left fun w hw => ?_
    have := hwords w hw
    unfold armWordOp
    rw [armWordOp_rotl w this]
  have hmix := coreStateMix_eq_foldl
    (((List.range 8).map (fun k => fromLEBytes ((v.drop (4 * k)).take 4))).map
      (fun w =>
        let w1 := rotl32 13 w
        let w2 := w1 ^^^ (w1 >>> 7)
        let w3 := w2 ^^^ ((w2 <<< 17) % 4294967296)
        bswap32 w3)) [] 0x12345678 (by norm_num)
  dsimp only
  rw [htrans, hmix]
  simp

/-- C3: at the 32-zero-byte digest the mixing pipeline as written differs
from the specified reference transform: `bytesToUint32s` hands
`armSpecificHash` the 32 raw bytes instead of eight little-endian `u32`
words (the call does not even type-check against
`armSpecificHash(const std::vector<uint32_t>&)`); with the intended
conversion the pipeline equals the reference
(`applyMobileMixingIntended_eq_spec`). -/
theorem C3_mixing_divergence :
    applyMobileMixing (List.replicate 32 0) ≠ mobileMixSpec (List.replicate 32 0) ∧
      bytesToUint32s (List.replicate 32 0) = List.replicate 32 0 ∧
      bytesToWords (List.replicate 32 0) = List.replicate 8 0 := by
  refine ⟨by decide, rfl, by decide⟩

/-! ## C4 — the derived NPU state -/

/-- C4: at hash counter 0 (any NPU step behaves alike) the 2048-byte
derived state agrees with the specified layout on the counter prefix and
on bytes 8–39, but byte 40 is 0 where the specified cyclic fill has 175
(the first byte of `SHA256(le64 0)` again): the source's fill loop
condition `i - 8 < 32` stops the "repeat the hash" fill after one copy,
leaving bytes 40–2047 zero. -/
theorem C4_state_fill_divergence :
    (npuVMState 0).take 8 = le64 0 ∧ (npuVMStateSpec 0).take 8 = le64 0 ∧
    (npuVMState 0).getD 8 0 = 175 ∧ (npuVMStateSpec 0).getD 8 0 = 175 ∧
    (npuVMState 0).getD 40 0 = 0 ∧ (npuVMStateSpec 0).getD 40 0 = 175 := by
  exact ⟨by decide, by decide, by decide, by decide, by decide, by decide⟩

/-! ## C5 — thermal-proof round-trip -/

/-- The `uint64_t` truncation of a rational is the clamped floor. -/
theorem ratToU64_eq_floor_toNat (q : ℚ) : ratToU64 q = (⌊q⌋).toNat := by
  rw [Rat.floor_def]
  unfold ratToU64
  rcases le_or_lt 0 q.num with h | h
  · obtain ⟨n, hn⟩ := Int.eq_ofNat_of_zero_le h
    rw [hn, ← Int.natCast_div]
    simp only [Int.toNat_natCast]
  · have h1 : q.num.toNat = 0 := Int.toNat_of_nonpos h.le
    have hden : (0 : ℤ) < (q.den : ℤ) := by exact_mod_cast q.den_pos
    have h2 : q.num / (q.den : ℤ) ≤ 0 := (Int.ediv_neg' h hden).le
    rw [h1, Int.toNat_of_nonpos h2]
    simp

/-- Truncation is monotone under a natural upper bound. -/
theorem ratToU64_le_of_le {q : ℚ} {n : Nat} (h : q ≤ (n : ℚ)) :
    ratToU64 q ≤ n := by
  rw [ratToU64_eq_floor_toNat]
  have h2 : ⌊q⌋ ≤ (n : ℤ) := by
    have := Int.floor_le_floor h
    rwa [Int.floor_natCast] at this
  exact Int.toNat_le.mpr h2

/-- Truncation is monotone under a natural lower bound. -/
theorem le_ratToU64_of_le {q : ℚ} {n : Nat} (h : (n : ℚ) ≤ q) :
    n ≤ ratToU64 q := by
  rw [ratToU64_eq_floor_toNat]
  have h2 : (n : ℤ) ≤ ⌊q⌋ := Int.le_floor.mpr (by exact_mod_cast h)
  have h0 : 0 ≤ ⌊q⌋ := le_trans (Int.ofNat_nonneg n) h2
  exact (Int.le_toNat h0).mpr h2

/-- C5 (counterexample): for the 32-zero-byte header under a fixed
deterministic environment (2·10^8 cycles over 0.1 s at 40 °C, default 5 %
tolerance), generating a proof and validating it against the same header
returns false: validation recomputes the proof over the header with its
last 8 bytes stripped, so the workload size (and hence `expectedCycles`)
changes from 32·100 to 24·100 and the SHA-256-based encoded proof moves
far outside the ±5 % window. -/
theorem C5_counterexample :
    (validateThermalProof cexEnv (generateThermalProof cexEnv cexTV zeroHeader32).2
      (generateThermalProof cexEnv cexTV zeroHeader32).1 zeroHeader32).1 = false := by
  with_unfolding_all decide

/-- C5 (amended): generate-then-validate over the same header accepts
whenever the tolerance is nonnegative, the two calls observe the same
cycle/clock environment and temperature, and the header either has fewer
than 8 bytes (nothing is stripped) or at least 40 (both workloads saturate
at 32 bytes) — in those cases the recomputed proof equals the original
and lies inside any nonnegative tolerance window. -/
theorem C5_roundtrip_amended (env : TVEnv) (st : TVState) (header : List Nat)
    (htol : 0 ≤ st.tolerancePercent)
    (hlen : header.length < 8 ∨ 40 ≤ header.length) :
    (validateThermalProof env (generateThermalProof env st header).2
      (generateThermalProof env st header).1 header).1 = true := by
  have hwl : ((serializeHeaderForThermalValidation header).take 32).length =
      (header.take 32).length := by
    unfold serializeHeaderForThermalValidation
    rcases hlen with h | h
    · rw [if_neg (by omega)]
    · rw [if_pos (by omega)]
      simp only [List.length_take]
      omega
  unfold validateThermalProof generateThermalProof
  dsimp only
  have henc : encodeProof (mkThermalProof env
        { st with history := addToHistory st.history (mkThermalProof env st header) }
        (serializeHeaderForThermalValidation header)) =
      encodeProof (mkThermalProof env st header) := by
    unfold encodeProof mkThermalProof
    dsimp only
    rw [hwl]
  rw [henc, Bool.and_eq_true]
  have hp0 : (0 : ℚ) ≤ ((encodeProof (mkThermalProof env st header) : Nat) : ℚ) :=
    Nat.cast_nonneg _
  have hrange : 0 ≤ ((encodeProof (mkThermalProof env st header) : Nat) : ℚ) *
      st.tolerancePercent / 100 :=
    div_nonneg (mul_nonneg hp0 htol) (by norm_num)
  constructor
  · exact decide_eq_true (ratToU64_le_of_le (by linarith))
  · exact decide_eq_true (le_ratToU64_of_le (by linarith))

/-! ## C7 — statistical cheat detection -/

/-- The population variance of a temperature window is nonnegative. -/
theorem tempVariance_nonneg (l : List ℚ) : 0 ≤ tempVariance l := by
  unfold tempVariance
  apply div_nonneg _ (Nat.cast_nonneg _)
  apply List.sum_nonneg
  intro x hx
  obtain ⟨t, _, rfl⟩ := List.mem_map.mp hx
  exact sq_nonneg _

/-- The mean of a constant nonempty window is that constant. -/
theorem tempMean_const (l : List ℚ) (t0 : ℚ) (hne : l ≠ [])
    (h : ∀ t ∈ l, t = t0) : tempMean l = t0 := by
  unfold tempMean
  have hlen : (l.length : ℚ) ≠ 0 :=
    Nat.cast_ne_zero.mpr (List.length_pos.mpr hne).ne'
  rw [List.sum_eq_card_nsmul l t0 h, nsmul_eq_mul]
  exact mul_div_cancel_left₀ t0 hlen

/-- If the variance of a nonempty window vanishes, every temperature in it
equals the mean. -/
theorem eq_mean_of_tempVariance_eq_zero (l : List ℚ) (hne : l ≠ [])
    (hv : tempVariance l = 0) : ∀ t ∈ l, t = tempMean l := by
  unfold tempVariance at hv
  have hlen : ((l.length : ℚ)) ≠ 0 :=
    Nat.cast_ne_zero.mpr (List.length_pos.mpr hne).ne'
  rw [div_eq_zero_iff] at hv
  rcases hv with hs | h0
  · intro t ht
    have hmem : (t - tempMean l) ^ 2 ∈ l.map (fun t => (t - tempMean l) ^ 2) :=
      List.mem_map_of_mem _ ht
    have hle : (t - tempMean l) ^ 2 ≤ (l.map fun t => (t - tempMean l) ^ 2).sum :=
      List.single_le_sum (fun x hx => by
        obtain ⟨u, _, rfl⟩ := List.mem_map.mp hx; exact sq_nonneg _) _ hmem
    have hzero : (t - tempMean l) ^ 2 = 0 :=
      le_antisymm (hs ▸ hle) (sq_nonneg _)
    have := (pow_eq_zero_iff two_ne_zero).mp hzero
    linarith [sub_eq_zero.mp this]
  · exact absurd h0 hlen

/-- The exact-arithmetic square-free outlier test matches the source's
real-valued z-score comparison `|d| / sqrt(v) > threshold` (with the
division-by-zero case of a zero variance yielding no outlier, as the
`double` NaN comparison does), for a nonnegative threshold. -/
theorem zscore_gt_iff (d v θ : ℚ) (hv : 0 ≤ v) (hθ : 0 ≤ θ)
    (hz : v = 0 → d = 0) :
    ((θ : ℝ) < |(d : ℝ)| / Real.sqrt ((v : ℝ))) ↔ θ ^ 2 * v < d ^ 2 := by
  rcases eq_or_lt_of_le hv with hv0 | hvpos
  · have hd : d = 0 := hz hv0.symm
    rw [hd, ← hv0]
    push_cast
    rw [Real.sqrt_zero, div_zero]
    constructor
    · intro h
      exact absurd h (not_lt.mpr (by exact_mod_cast hθ))
    · intro h
      norm_num at h
  · have hvR : (0 : ℝ) < (v : ℝ) := by exact_mod_cast hvpos
    have hs : 0 < Real.sqrt (v : ℝ) := Real.sqrt_pos.mpr hvR
    have hss : Real.sqrt (v : ℝ) ^ 2 = (v : ℝ) := Real.sq_sqrt hvR.le
    have hθR : (0 : ℝ) ≤ (θ : ℝ) := by exact_mod_cast hθ
    rw [lt_div_iff₀ hs]
    have h1 : 0 ≤ (θ : ℝ) * Real.sqrt (v : ℝ) := mul_nonneg hθR hs.le
    have key : (θ : ℝ) * Real.sqrt (v : ℝ) < |(d : ℝ)| ↔
        (θ : ℝ) ^ 2 * (v : ℝ) < (d : ℝ) ^ 2 := by
      constructor
      · intro h
        nlinarith [sq_abs (d : ℝ), abs_nonneg (d : ℝ)]
      · intro h
        nlinarith [sq_abs (d : ℝ), abs_nonneg (d : ℝ)]
    rw [key]
    constructor
    · intro h; exact_mod_cast h
    · intro h; exact_mod_cast h

/-- C7: the cheat detector returns the empty list for fewer than 10
proofs and for any window of equal temperatures; for a window of at least
10 proofs, an index is reported if and only if it is in range and its
temperature's z-score `|t − mean| / sqrt(variance)` (computed over the
whole window) exceeds the threshold — so a window with exactly one
temperature beyond the threshold yields exactly that index. -/
theorem C7_cheat_detection (proofs : List TProof) (threshold : ℚ)
    (hθ : 0 ≤ threshold) :
    (proofs.length < 10 → detectThermalCheating proofs threshold = []) ∧
    (∀ t0 : ℚ, (∀ p ∈ proofs, p.temperature = t0) →
      detectThermalCheating proofs threshold = []) ∧
    (10 ≤ proofs.length → ∀ i : Nat,
      (i ∈ detectThermalCheating proofs threshold ↔
        i < proofs.length ∧
          (threshold : ℝ) <
            |(((proofs.map fun p => p.temperature).getD i 0 -
                tempMean (proofs.map fun p => p.temperature) : ℚ) : ℝ)| /
              Real.sqrt ((tempVariance (proofs.map fun p => p.temperature) : ℚ) : ℝ))) := by
  refine ⟨?_, ?_, ?_⟩
  · intro h
    unfold detectThermalCheating
    rw [if_pos h]
  · intro t0 hall
    unfold detectThermalCheating
    by_cases hlen : proofs.length < 10
    · rw [if_pos hlen]
    · rw [if_neg hlen]
      have hne : proofs ≠ [] := by
        intro h; rw [h] at hlen; simp at hlen
      have htemps : ∀ t ∈ proofs.map fun p => p.temperature, t = t0 := by
        intro t ht
        obtain ⟨p, hp, rfl⟩ := List.mem_map.mp ht
        exact hall p hp
      have hmapne : (proofs.map fun p => p.temperature) ≠ [] := by
        simp [hne]
      have hmean := tempMean_const _ t0 hmapne htemps
      apply List.filter_eq_nil_iff.mpr
      intro i hi
      simp only [decide_eq_true_eq]
      have hilen : i < proofs.length := List.mem_range.mp hi
      have hget : (proofs.map fun p => p.temperature).getD i 0 = t0 := by
        have hlt : i < (proofs.map fun p => p.temperature).length := by
          simpa using hilen
        rw [List.getD_eq_getElem?_getD, List.getElem?_eq_getElem hlt,
          Option.getD_some]
        exact htemps _ (List.getElem_mem _)
      rw [hget, hmean]
      simp only [sub_self, ne_eq, OfNat.ofNat_ne_zero, not_false_eq_true,
        zero_pow, not_lt]
      exact mul_nonneg (sq_nonneg _) (tempVariance_nonneg _)
  · intro hlen i
    unfold detectThermalCheating
    rw [if_neg (not_lt.mpr hlen)]
    rw [List.mem_filter, List.mem_range]
    simp only [decide_eq_true_eq]
    apply and_congr_right
    intro hilen
    have hne : proofs ≠ [] := by
      intro h; rw [h] at hlen; simp at hlen
    refine (zscore_gt_iff _ _ _ (tempVariance_nonneg _) hθ ?_).symm
    intro hv0
    have hlt : i < (proofs.map fun p => p.temperature).length := by
      simpa using hilen
    have hmem : (proofs.map fun p => p.temperature).getD i 0 ∈
        (proofs.map fun p => p.temperature) := by
      rw [List.getD_eq_getElem?_getD, List.getElem?_eq_getElem hlt,
        Option.getD_some]
      exact List.getElem_mem _
    have := eq_mean_of_tempVariance_eq_zero _ (by simp [hne]) hv0 _ hmem
    linarith

/-- C7 witness: ten proofs all at 40 °C with the default threshold 2.0
yield no outliers. -/
theorem C7_cheat_detection_witness :
    0 ≤ (2 : ℚ) ∧ detectThermalCheating (List.replicate 10 tp40) 2 = [] :=
  ⟨by norm_num,
    (C7_cheat_detection (List.replicate 10 tp40) 2 (by norm_num)).2.1 40
      (fun p hp => by rw [List.eq_of_mem_replicate hp]; rfl)⟩

/-! ## C8 — NEON vectorHash vs scalar fallback -/

/-- The scalar XOR loop splits over list concatenation, with the running
byte index advanced by the first part's length. -/
theorem scalarGo_append (l₁ l₂ : List Nat) :
    ∀ (res : Fin 32 → Nat) (i : Nat),
      scalarGo res i (l₁ ++ l₂) = scalarGo (scalarGo res i l₁) (i + l₁.length) l₂ := by
  induction l₁ with
  | nil => intro res i; simp [scalarGo]
  | cons b rest ih =>
      intro res i
      show scalarGo (xorAt res i b) (i + 1) (rest ++ l₂) =
        scalarGo (scalarGo (xorAt res i b) (i + 1) rest) (i + (rest.length + 1)) l₂
      rw [ih, show i + 1 + rest.length = i + (rest.length + 1) from by omega]

/-- Pointwise description of the scalar XOR loop on a window of at most 32
bytes starting at byte index `s`: position `m` receives the XOR of the
single byte (if any) whose index is congruent to `m` mod 32. -/
theorem scalarGo_apply (c : List Nat) (hle : c.length ≤ 32) :
    ∀ (s : Nat) (res : Fin 32 → Nat) (m : Fin 32),
      scalarGo res s c m =
        if ((m : Nat) + 32 - s % 32) % 32 < c.length then
          res m ^^^ c.getD (((m : Nat) + 32 - s % 32) % 32) 0
        else res m := by
  induction c with
  | nil =>
      intro s res m
      simp [scalarGo]
  | cons b rest ih =>
      intro s res m
      have hm := m.isLt
      have hrest : rest.length ≤ 32 := by
        simp only [List.length_cons] at hle; omega
      simp only [scalarGo]
      rw [ih hrest (s + 1) (xorAt res s b) m]
      by_cases hmeq : (m : Nat) = s % 32
      · have hj : ((m : Nat) + 32 - s % 32) % 32 = 0 := by omega
        have hj' : ((m : Nat) + 32 - (s + 1) % 32) % 32 = 31 := by omega
        rw [hj, hj']
        have hr31 : ¬(31 < rest.length) := by
          simp only [List.length_cons] at hle; omega
        rw [if_neg hr31, if_pos (by simp)]
        unfold xorAt
        rw [if_pos hmeq]
        rfl
      · have hj1 : 1 ≤ ((m : Nat) + 32 - s % 32) % 32 := by omega
        have hj' : ((m : Nat) + 32 - (s + 1) % 32) % 32 =
            ((m : Nat) + 32 - s % 32) % 32 - 1 := by omega
        rw [hj']
        have hxor : xorAt res s b m = res m := by
          unfold xorAt; rw [if_neg hmeq]
        rw [hxor]
        obtain ⟨j0, hj0⟩ : ∃ j0, ((m : Nat) + 32 - s % 32) % 32 = j0 + 1 :=
          ⟨((m : Nat) + 32 - s % 32) % 32 - 1, by omega⟩
        rw [hj0]
        simp only [List.getD_cons_succ, List.length_cons, Nat.add_sub_cancel,
          Nat.add_lt_add_iff_right]

/-- One NEON chunk store equals sixteen scalar XOR steps at the same
global byte indices: for chunk `i` the bytes land in the half
`[(i % 2) * 16, (i % 2) * 16 + 16)`, which is exactly where indices
`16 i .. 16 i + 15` fall mod 32. -/
theorem vecChunkStep_eq_scalarGo (res : Fin 32 → Nat) (c : List Nat) (i : Nat)
    (hc : c.length = 16) :
    vecChunkStep res c i = scalarGo res (16 * i) c := by
  funext m
  rw [scalarGo_apply c (by omega) (16 * i) res m]
  unfold vecChunkStep
  have hm := m.isLt
  have hbase : (16 * i) % 32 = (i % 2) * 16 := by omega
  by_cases hwin : (i % 2) * 16 ≤ (m : Nat) ∧ (m : Nat) < (i % 2) * 16 + 16
  · have hj : ((m : Nat) + 32 - (16 * i) % 32) % 32 = (m : Nat) - (i % 2) * 16 := by
      omega
    rw [if_pos hwin, hj, if_pos (by omega)]
  · have hj : ¬(((m : Nat) + 32 - (16 * i) % 32) % 32 < c.length) := by
      rw [hc]; omega
    rw [if_neg hwin, if_neg hj]

/-- The chunk loop followed by the trailing loop equals the pure scalar
loop, whenever the chunk count covers at most the available data. -/
theorem vecGo_eq_scalarGo :
    ∀ (chunks : Nat) (data : List Nat) (res : Fin 32 → Nat) (i : Nat),
      16 * chunks ≤ data.length →
      vecGo res i chunks data = scalarGo res (16 * i) data := by
  intro chunks
  induction chunks with
  | zero => intro data res i _; rfl
  | succ n ih =>
      intro data res i h
      have h16 : 16 ≤ data.length := by omega
      have htake : (data.take 16).length = 16 := by
        simp only [List.length_take]; omega
      calc vecGo res i (n + 1) data
          = vecGo (vecChunkStep res (data.take 16) i) (i + 1) n (data.drop 16) := rfl
        _ = scalarGo (vecChunkStep res (data.take 16) i) (16 * (i + 1))
              (data.drop 16) := by
              refine ih (data.drop 16) _ (i + 1) ?_
              simp only [List.length_drop]
              omega
        _ = scalarGo (scalarGo res (16 * i) (data.take 16)) (16 * (i + 1))
              (data.drop 16) := by
              rw [vecChunkStep_eq_scalarGo res (data.take 16) i htake]
        _ = scalarGo (scalarGo res (16 * i) (data.take 16))
              (16 * i + (data.take 16).length) (data.drop 16) := by
              rw [htake, show 16 * (i + 1) = 16 * i + 16 from by ring]
        _ = scalarGo res (16 * i) (data.take 16 ++ data.drop 16) :=
              (scalarGo_append _ _ _ _).symm
        _ = scalarGo res (16 * i) data := by rw [List.take_append_drop]

/-- C8: for every input byte sequence, the NEON `vectorHash` (zeroed
32-byte result, 16-byte chunks XOR-folded into alternating halves,
trailing bytes XORed at `index mod 32`) produces byte-for-byte the same
32-byte result as the scalar fallback that XORs every input byte at
`index mod 32`. -/
theorem C8_vectorHash_eq_scalarHash (data : List Nat) :
    vectorHash data = scalarHash data := by
  unfold vectorHash scalarHash
  rw [vecGo_eq_scalarGo (data.length / 16) data _ 0
    (by rw [Nat.mul_comm]; exact Nat.div_mul_le_self _ _)]

/-- C5 witness: under the fixed environment, a 4-byte header (shorter than
the 8-byte proof slot) round-trips: generate then validate accepts. -/
theorem C5_roundtrip_amended_witness :
    0 ≤ cexTV.tolerancePercent ∧ (zeroHeader4.length < 8 ∨ 40 ≤ zeroHeader4.length) ∧
    (validateThermalProof cexEnv (generateThermalProof cexEnv cexTV zeroHeader4).2
      (generateThermalProof cexEnv cexTV zeroHeader4).1 zeroHeader4).1 = true :=
  ⟨by norm_num [cexTV], Or.inl (by decide),
    C5_roundtrip_amended cexEnv cexTV zeroHeader4 (by norm_num [cexTV])
      (Or.inl (by decide))⟩

end Shell
